import Mathlib

/-!
Verification development for the mesh-loading core of `bevy_obj`
(`src/loader.rs`).

The core turns a parsed OBJ document (a flat list of vertex positions and a
flat list of `u32` vertex indices) into an indexed mesh: a POSITION buffer,
a synthesized NORMAL buffer, a placeholder UV0 buffer, and an index buffer.

Embedding notes:
* `Vec3` models `bevy::prelude::Vec3` / `[f32; 3]`.  The scalar type is kept
  abstract (any `Ring α`): the source performs only ring operations on the
  coordinates, except for `Vec3::normalize`, which is a floating-point
  operation of the external `glam` crate (a division by a square root).
  The whole development is therefore parametric in a `normalize` function;
  every structural claim holds for an arbitrary `normalize`, in particular
  for the floating-point one.
* `u32` index values are embedded as `Nat` (the source only widens them with
  `as usize`, which cannot change the value).
* Rust's `Vec::get(..).unwrap()` panics on an out-of-range index.  Fallible
  computations are embedded in `Option`, with `none` standing for the panic.
* `Mesh` is embedded as a record holding the topology, the three attribute
  buffers and the index buffer; `Mesh::new`, `set_attribute` and
  `set_indices` become record construction.
-/

namespace BevyObj

/-- Three-component vector, modelling `bevy::prelude::Vec3` / `[f32; 3]`
with an abstract scalar type. -/
structure Vec3 (α : Type) where
  x : α
  y : α
  z : α
deriving DecidableEq, Repr

instance [Add α] : Add (Vec3 α) :=
  ⟨fun a b => ⟨a.x + b.x, a.y + b.y, a.z + b.z⟩⟩

instance [Sub α] : Sub (Vec3 α) :=
  ⟨fun a b => ⟨a.x - b.x, a.y - b.y, a.z - b.z⟩⟩

instance [Zero α] : Zero (Vec3 α) :=
  ⟨⟨0, 0, 0⟩⟩

theorem Vec3.add_def [Add α] (a b : Vec3 α) :
    a + b = ⟨a.x + b.x, a.y + b.y, a.z + b.z⟩ := rfl

theorem Vec3.zero_def [Zero α] : (0 : Vec3 α) = ⟨0, 0, 0⟩ := rfl

instance [AddCommMonoid α] : AddCommMonoid (Vec3 α) where
  add := (· + ·)
  zero := 0
  add_assoc a b c := by
    cases a; cases b; cases c
    simp [Vec3.add_def, add_assoc]
  zero_add a := by
    cases a
    simp [Vec3.add_def, Vec3.zero_def]
  add_zero a := by
    cases a
    simp [Vec3.add_def, Vec3.zero_def]
  add_comm a b := by
    cases a; cases b
    simp [Vec3.add_def]
    exact ⟨add_comm _ _, add_comm _ _, add_comm _ _⟩
  nsmul := nsmulRec

/-- Cross product of two vectors, modelling `glam`'s `Vec3::cross` (the
component formula of the standard 3D cross product). -/
def cross [Ring α] (a b : Vec3 α) : Vec3 α :=
  ⟨a.y * b.z - a.z * b.y, a.z * b.x - a.x * b.z, a.x * b.y - a.y * b.x⟩

/-- Models `obj::Position`: a vertex record whose only field is its
position. -/
structure Position (α : Type) where
  position : Vec3 α
deriving DecidableEq, Repr

/-- Models `obj::Obj<obj::Position, u32>`: the parsed OBJ document, a flat
vertex list plus a flat index list. -/
structure Obj (α : Type) where
  vertices : List (Position α)
  indices : List Nat
deriving DecidableEq, Repr

/-- Models `bevy_vec3_from_position`: `Vec3::from(position.position)`. -/
def bevy_vec3_from_position (p : Position α) : Vec3 α :=
  p.position

/-- Models `PrimitiveTopology` of `bevy_render`. -/
inductive PrimitiveTopology where
  | pointList
  | lineList
  | lineStrip
  | triangleList
  | triangleStrip
deriving DecidableEq, Repr

/-- Models the assembled `Mesh`: topology, the three vertex attribute
buffers set by `load_obj_pnt`, and the index buffer set by
`set_mesh_indices`. -/
structure Mesh (α : Type) where
  topology : PrimitiveTopology
  position : List (Vec3 α)
  normal : List (Vec3 α)
  uv0 : List (Vec3 α)
  indices : List Nat
deriving DecidableEq, Repr

/-- Models Rust's `indexes.windows(3)`: every window of three consecutive
elements, advancing one element at a time; a list shorter than three
elements yields no window. -/
def windows3 : List Nat → List (Nat × Nat × Nat)
  | i0 :: i1 :: i2 :: rest => (i0, i1, i2) :: windows3 (i1 :: i2 :: rest)
  | _ => []

/-- Body of the `for indexes in indexes.windows(3)` loop of
`normals_for_positions`: fetch the three vertices (`.get(..).unwrap()`
panics, i.e. `none`, when an index is out of range), compute
`normalize(cross(v0 - v1, v2 - v1))`, and add it into the accumulator slot
of the window's first index (`.get_mut(indexes[0]).unwrap() += normal`). -/
def normalStep [Ring α] (normalize : Vec3 α → Vec3 α)
    (vertices : List (Position α)) (normals : List (Vec3 α))
    (w : Nat × Nat × Nat) : Option (List (Vec3 α)) := do
  let v0 ← vertices[w.1]?
  let v1 ← vertices[w.2.1]?
  let v2 ← vertices[w.2.2]?
  let v0 := bevy_vec3_from_position v0
  let v1 := bevy_vec3_from_position v1
  let v2 := bevy_vec3_from_position v2
  let normal : Vec3 α := cross (v0 - v1) (v2 - v1)
  let normal := normalize normal
  let cur ← normals[w.1]?
  pure (normals.set w.1 (cur + normal))

/-- Models `normals_for_positions`: an accumulator of one zero vector per
vertex, folded over all width-3 windows of the index list.  `none` models
the panic of an `unwrap` on an out-of-range index.  (The final conversion
of each `Vec3` back to a `[f32; 3]` slice is the identity in this
embedding.) -/
def normals_for_positions [Ring α] (normalize : Vec3 α → Vec3 α)
    (positions : Obj α) : Option (List (Vec3 α)) :=
  (windows3 positions.indices).foldlM (normalStep normalize positions.vertices)
    (List.replicate positions.vertices.length (0 : Vec3 α))

/-- Models `uvs_for_positions`: one `[0.; 3]` entry per vertex. -/
def uvs_for_positions [Ring α] (positions : Obj α) : List (Vec3 α) :=
  positions.vertices.map (fun _ => (⟨0, 0, 0⟩ : Vec3 α))

/-- Models `set_mesh_indices`: `obj.indices.iter().map(|i| *i as u32)`,
which is the identity on the already-`u32` index values. -/
def set_mesh_indices (obj : Obj α) : List Nat :=
  obj.indices.map (fun i => i)

/-- Models `load_obj_pnt` together with the mesh construction of
`load_obj`: build the POSITION buffer from the vertex positions, synthesize
the normals (propagating the panic as `none`), build the UV buffer, and
assemble the `TriangleList` mesh with the index buffer. -/
def load_obj_pnt [Ring α] (normalize : Vec3 α → Vec3 α) (obj : Obj α) :
    Option (Mesh α) := do
  let positions := obj.vertices.map (fun v => v.position)
  let normals ← normals_for_positions normalize obj
  let uvs := uvs_for_positions obj
  pure { topology := PrimitiveTopology.triangleList
         position := positions
         normal := normals
         uv0 := uvs
         indices := set_mesh_indices obj }

/-- How a load operation can fail: `typed e` models an `Err` value returned
to the caller (the `ObjError` path of `load_obj`), `panicked` models an
unrecovered Rust panic (the `unwrap` path of `normals_for_positions`). -/
inductive LoadFailure (ε : Type) where
  | typed (e : ε)
  | panicked
deriving DecidableEq, Repr

/-- Models `load_obj`.  The external `obj::load_obj` parser is not part of
this repository, so its outcome is taken as the input: a parse error `e`
becomes the typed failure `ObjError::Gltf(e)` via the `?` operator, while a
parsed `Obj` flows into `load_obj_pnt`, whose panic (if any) aborts the
load with no mesh produced.  `set_default_asset` is modelled as returning
the mesh. -/
def load_obj [Ring α] (normalize : Vec3 α → Vec3 α)
    (parsed : Except ε (Obj α)) : Except (LoadFailure ε) (Mesh α) :=
  match parsed with
  | Except.error e => Except.error (LoadFailure.typed e)
  | Except.ok obj =>
    match load_obj_pnt normalize obj with
    | none => Except.error LoadFailure.panicked
    | some mesh => Except.ok mesh

/-- Modelled from the spec: the windows the spec describes, "a window of
three consecutive elements across `indices`, advancing the window by one
position at a time", written as an explicit enumeration of the starting
offsets `0 .. indices.length - 3`. -/
def windowsSpec (indices : List Nat) : List (Nat × Nat × Nat) :=
  (List.range (indices.length - 2)).map
    (fun k => (indices.getD k 0, indices.getD (k + 1) 0, indices.getD (k + 2) 0))

/-- Modelled from the spec: the per-window unit normal
`normalize(cross(v0 - v1, v2 - v1))` with `v0 = positions[i0]`,
`v1 = positions[i1]`, `v2 = positions[i2]`. -/
def windowNormal [Ring α] (normalize : Vec3 α → Vec3 α)
    (positions : List (Vec3 α)) (w : Nat × Nat × Nat) : Vec3 α :=
  normalize (cross (positions.getD w.1 0 - positions.getD w.2.1 0)
                   (positions.getD w.2.2 0 - positions.getD w.2.1 0))

/-- Modelled from the spec (§4.2): start from an accumulator of N zero
vectors, and for each window `(i0, i1, i2)` add the window's unit normal
into the accumulator at position `i0` only. -/
def normalsSpec [Ring α] (normalize : Vec3 α → Vec3 α)
    (positions : List (Vec3 α)) (indices : List Nat) : List (Vec3 α) :=
  (windowsSpec indices).foldl
    (fun acc w => acc.set w.1 (acc.getD w.1 0 + windowNormal normalize positions w))
    (List.replicate positions.length (0 : Vec3 α))

/-! Helper lemmas. -/

theorem windowsSpec_nil : windowsSpec [] = [] := rfl

theorem windowsSpec_single (a : Nat) : windowsSpec [a] = [] := rfl

theorem windowsSpec_pair (a b : Nat) : windowsSpec [a, b] = [] := rfl

theorem windowsSpec_cons3 (i0 i1 i2 : Nat) (rest : List Nat) :
    windowsSpec (i0 :: i1 :: i2 :: rest) =
      (i0, i1, i2) :: windowsSpec (i1 :: i2 :: rest) := by
  show (List.range ((i0 :: i1 :: i2 :: rest).length - 2)).map _ = _
  have hlen : (i0 :: i1 :: i2 :: rest).length - 2 =
      ((i1 :: i2 :: rest).length - 2) + 1 := by
    simp
  rw [hlen, List.range_succ_eq_map, List.map_cons, List.map_map]
  rfl

/-- Rust's `windows(3)` enumerates exactly the windows the spec describes:
the triple starting at every offset `k ≤ length - 3`. -/
theorem windows3_eq_windowsSpec : ∀ indices : List Nat,
    windows3 indices = windowsSpec indices
  | [] => rfl
  | [_] => rfl
  | [_, _] => rfl
  | i0 :: i1 :: i2 :: rest => by
    rw [windowsSpec_cons3, ← windows3_eq_windowsSpec (i1 :: i2 :: rest)]
    rfl

/-- Every component of a window is an element of the index list. -/
theorem windows3_mem : ∀ {indices : List Nat} {w : Nat × Nat × Nat},
    w ∈ windows3 indices → w.1 ∈ indices ∧ w.2.1 ∈ indices ∧ w.2.2 ∈ indices
  | i0 :: i1 :: i2 :: rest, w, hw => by
    rw [show windows3 (i0 :: i1 :: i2 :: rest) =
        (i0, i1, i2) :: windows3 (i1 :: i2 :: rest) from rfl] at hw
    rcases List.mem_cons.mp hw with h | h
    · subst h
      refine ⟨List.mem_cons_self _ _, ?_, ?_⟩ <;> simp
    · obtain ⟨h1, h2, h3⟩ := windows3_mem h
      exact ⟨List.mem_cons_of_mem _ h1, List.mem_cons_of_mem _ h2,
        List.mem_cons_of_mem _ h3⟩

theorem windows3_eq_nil_of_short {indices : List Nat}
    (h : indices.length < 3) : windows3 indices = [] := by
  match indices with
  | [] => rfl
  | [_] => rfl
  | [_, _] => rfl
  | _ :: _ :: _ :: _ => simp at h; omega

theorem getD_map_position [Zero α] (vertices : List (Position α)) (i : Nat)
    (h : i < vertices.length) :
    (vertices.map (fun v => v.position)).getD i 0 = (vertices.get ⟨i, h⟩).position := by
  have hm : i < (vertices.map (fun v => v.position)).length := by
    simpa using h
  rw [List.getD_eq_getElem _ _ hm, List.getElem_map]
  rfl

/-- Evaluation of the loop body when all three vertex fetches are in
range. -/
theorem normalStep_eq_some [Ring α] (normalize : Vec3 α → Vec3 α)
    (vertices : List (Position α)) (normals : List (Vec3 α))
    (w : Nat × Nat × Nat)
    (h0 : w.1 < vertices.length) (h1 : w.2.1 < vertices.length)
    (h2 : w.2.2 < vertices.length) (hacc : w.1 < normals.length) :
    normalStep normalize vertices normals w =
      some (normals.set w.1 (normals.getD w.1 0 +
        windowNormal normalize (vertices.map (fun v => v.position)) w)) := by
  simp only [normalStep, windowNormal, List.getElem?_eq_getElem h0,
    List.getElem?_eq_getElem h1, List.getElem?_eq_getElem h2,
    List.getElem?_eq_getElem hacc, Option.bind_eq_bind, Option.some_bind]
  rw [getD_map_position vertices _ h0, getD_map_position vertices _ h1,
    getD_map_position vertices _ h2, List.getD_eq_getElem _ _ hacc]
  rfl

/-- The loop body panics (models `unwrap` on `None`) as soon as one of the
three window indices is out of range. -/
theorem normalStep_eq_none [Ring α] (normalize : Vec3 α → Vec3 α)
    (vertices : List (Position α)) (normals : List (Vec3 α))
    (w : Nat × Nat × Nat)
    (h : vertices.length ≤ w.1 ∨ vertices.length ≤ w.2.1 ∨
      vertices.length ≤ w.2.2) :
    normalStep normalize vertices normals w = none := by
  rcases h with h | h | h
  · simp [normalStep, List.getElem?_eq_none h]
  · cases h0 : vertices[w.1]? <;>
      simp [normalStep, h0, List.getElem?_eq_none h]
  · cases h0 : vertices[w.1]? <;> cases h1 : vertices[w.2.1]? <;>
      simp [normalStep, h0, h1, List.getElem?_eq_none h]

/-- A successful loop body preserves the accumulator length. -/
theorem normalStep_length [Ring α] {normalize : Vec3 α → Vec3 α}
    {vertices : List (Position α)} {normals r : List (Vec3 α)}
    {w : Nat × Nat × Nat}
    (h : normalStep normalize vertices normals w = some r) :
    r.length = normals.length := by
  simp only [normalStep, Option.bind_eq_bind, Option.bind_eq_some,
    Option.pure_def, Option.some_inj] at h
  obtain ⟨v0, _, v1, _, v2, _, cur, _, hr⟩ := h
  rw [← hr]
  exact List.length_set ..

/-- The accumulation step the spec describes (set slot `i0` to its old
value plus the window's unit normal). -/
def specStep [Ring α] (normalize : Vec3 α → Vec3 α)
    (positions : List (Vec3 α)) (acc : List (Vec3 α))
    (w : Nat × Nat × Nat) : List (Vec3 α) :=
  acc.set w.1 (acc.getD w.1 0 + windowNormal normalize positions w)

theorem normalsSpec_eq_foldl [Ring α] (normalize : Vec3 α → Vec3 α)
    (positions : List (Vec3 α)) (indices : List Nat) :
    normalsSpec normalize positions indices =
      (windowsSpec indices).foldl (specStep normalize positions)
        (List.replicate positions.length (0 : Vec3 α)) := rfl

/-- When every window component is in range, the monadic fold of the source
loop computes exactly the pure fold the spec describes. -/
theorem foldlM_eq_specFold [Ring α] (normalize : Vec3 α → Vec3 α)
    (vertices : List (Position α)) :
    ∀ (ws : List (Nat × Nat × Nat)) (acc : List (Vec3 α)),
      (∀ w ∈ ws, w.1 < vertices.length ∧ w.2.1 < vertices.length ∧
        w.2.2 < vertices.length) →
      acc.length = vertices.length →
      ws.foldlM (normalStep normalize vertices) acc =
        some (ws.foldl (specStep normalize (vertices.map (fun v => v.position))) acc)
  | [], acc, _, _ => rfl
  | w :: ws, acc, hws, hlen => by
    obtain ⟨h0, h1, h2⟩ := hws w (List.mem_cons_self _ _)
    have hacc : w.1 < acc.length := by omega
    have hstep := normalStep_eq_some normalize vertices acc w h0 h1 h2 hacc
    have hbind : (w :: ws).foldlM (normalStep normalize vertices) acc =
        (normalStep normalize vertices acc w) >>= fun acc' =>
          ws.foldlM (normalStep normalize vertices) acc' := rfl
    rw [hbind, hstep]
    show ws.foldlM (normalStep normalize vertices) _ = _
    rw [foldlM_eq_specFold normalize vertices ws _
      (fun w' hw' => hws w' (List.mem_cons_of_mem _ hw'))
      (by rw [List.length_set]; exact hlen)]
    rfl

/-- When some window has an out-of-range component, the source loop
panics: the monadic fold is `none`. -/
theorem foldlM_eq_none_of_oob [Ring α] (normalize : Vec3 α → Vec3 α)
    (vertices : List (Position α)) :
    ∀ (ws : List (Nat × Nat × Nat)) (acc : List (Vec3 α)),
      acc.length = vertices.length →
      (∃ w ∈ ws, vertices.length ≤ w.1 ∨ vertices.length ≤ w.2.1 ∨
        vertices.length ≤ w.2.2) →
      ws.foldlM (normalStep normalize vertices) acc = none
  | [], _, _, hex => by simp at hex
  | w :: ws, acc, hlen, hex => by
    have hbind : (w :: ws).foldlM (normalStep normalize vertices) acc =
        (normalStep normalize vertices acc w) >>= fun acc' =>
          ws.foldlM (normalStep normalize vertices) acc' := rfl
    by_cases hw : vertices.length ≤ w.1 ∨ vertices.length ≤ w.2.1 ∨
        vertices.length ≤ w.2.2
    · rw [hbind, normalStep_eq_none normalize vertices acc w hw]
      rfl
    · push_neg at hw
      obtain ⟨h0, h1, h2⟩ := hw
      have hacc : w.1 < acc.length := by omega
      rw [hbind, normalStep_eq_some normalize vertices acc w h0 h1 h2 hacc]
      show ws.foldlM (normalStep normalize vertices) _ = none
      apply foldlM_eq_none_of_oob normalize vertices ws _
        (by rw [List.length_set]; exact hlen)
      obtain ⟨w', hw', hoob⟩ := hex
      rcases List.mem_cons.mp hw' with h | h
      · subst h
        exact absurd hoob (by push_neg; exact ⟨h0, h1, h2⟩)
      · exact ⟨w', h, hoob⟩

theorem specFold_length [Ring α] (normalize : Vec3 α → Vec3 α)
    (positions : List (Vec3 α)) :
    ∀ (ws : List (Nat × Nat × Nat)) (acc : List (Vec3 α)),
      (ws.foldl (specStep normalize positions) acc).length = acc.length
  | [], _ => rfl
  | w :: ws, acc => by
    show (ws.foldl (specStep normalize positions) _).length = _
    rw [specFold_length normalize positions ws]
    exact List.length_set ..

/-- Refinement of the source normal synthesis by the spec's description:
on in-range indices, `normals_for_positions` succeeds and computes
`normalsSpec` (the spec-modelled accumulator fold) on the vertex
positions. -/
theorem normals_eq_spec [Ring α] (normalize : Vec3 α → Vec3 α) (obj : Obj α)
    (h : ∀ i ∈ obj.indices, i < obj.vertices.length) :
    normals_for_positions normalize obj =
      some (normalsSpec normalize (obj.vertices.map (fun v => v.position))
        obj.indices) := by
  rw [normals_for_positions, normalsSpec_eq_foldl, ← windows3_eq_windowsSpec,
    List.length_map]
  apply foldlM_eq_specFold
  · intro w hw
    obtain ⟨h1, h2, h3⟩ := windows3_mem hw
    exact ⟨h _ h1, h _ h2, h _ h3⟩
  · exact List.length_replicate ..

/-- When some window has an out-of-range component, the source normal
synthesis panics. -/
theorem normals_eq_none_of_oob [Ring α] (normalize : Vec3 α → Vec3 α)
    (obj : Obj α)
    (h : ∃ w ∈ windows3 obj.indices, obj.vertices.length ≤ w.1 ∨
      obj.vertices.length ≤ w.2.1 ∨ obj.vertices.length ≤ w.2.2) :
    normals_for_positions normalize obj = none := by
  rw [normals_for_positions]
  exact foldlM_eq_none_of_oob _ _ _ _ (List.length_replicate ..) h

/-- Each slot of the spec's accumulator fold holds its initial value plus
the plain sum of the unit normals of the windows whose first component is
that slot. -/
theorem specFold_getD [Ring α] (normalize : Vec3 α → Vec3 α)
    (positions : List (Vec3 α)) :
    ∀ (ws : List (Nat × Nat × Nat)) (acc : List (Vec3 α)) (j : Nat),
      j < acc.length →
      (∀ w ∈ ws, w.1 < acc.length) →
      (ws.foldl (specStep normalize positions) acc).getD j 0 =
        acc.getD j 0 +
          ((ws.filter (fun w => w.1 = j)).map
            (windowNormal normalize positions)).sum
  | [], acc, j, _, _ => by simp
  | w :: ws, acc, j, hj, hws => by
    have h0 : w.1 < acc.length := hws w (List.mem_cons_self _ _)
    have hset : (specStep normalize positions acc w).length = acc.length := by
      rw [specStep]
      exact List.length_set ..
    show (ws.foldl (specStep normalize positions)
      (specStep normalize positions acc w)).getD j 0 = _
    rw [specFold_getD normalize positions ws _ j (by omega)
      (fun w' hw' => by
        have := hws w' (List.mem_cons_of_mem _ hw')
        omega)]
    by_cases hwj : w.1 = j
    · subst hwj
      have hfilter : (w :: ws).filter (fun w' => w'.1 = w.1) =
          w :: ws.filter (fun w' => w'.1 = w.1) := by
        simp [List.filter_cons]
      rw [hfilter, List.map_cons, List.sum_cons]
      have hslot : (specStep normalize positions acc w).getD w.1 0 =
          acc.getD w.1 0 + windowNormal normalize positions w := by
        rw [specStep, List.getD_eq_getElem _ _ (by rw [List.length_set]; omega),
          List.getElem_set_self, List.getD_eq_getElem _ _ h0]
      rw [hslot, add_assoc]
    · have hfilter : (w :: ws).filter (fun w' => w'.1 = j) =
          ws.filter (fun w' => w'.1 = j) := by
        simp [List.filter_cons, hwj]
      have hslot : (specStep normalize positions acc w).getD j 0 =
          acc.getD j 0 := by
        rw [specStep, List.getD_eq_getElem _ _ (by rw [List.length_set]; omega),
          List.getElem_set_ne hwj, ← List.getD_eq_getElem _ _ hj]
      rw [hfilter, hslot]

theorem normalsSpec_length [Ring α] (normalize : Vec3 α → Vec3 α)
    (positions : List (Vec3 α)) (indices : List Nat) :
    (normalsSpec normalize positions indices).length = positions.length := by
  rw [normalsSpec_eq_foldl, specFold_length]
  exact List.length_replicate ..

/-! Concrete inputs used by the witnesses (scalar type `ℤ`, `normalize`
instantiated with the identity function). -/

/-- Spec §8 scenario A: a single triangle. -/
def objA : Obj ℤ :=
  ⟨[⟨⟨0, 0, 0⟩⟩, ⟨⟨1, 0, 0⟩⟩, ⟨⟨0, 1, 0⟩⟩], [0, 1, 2]⟩

/-- One vertex, four (degenerate) indices: length not a multiple of 3. -/
def objB : Obj ℤ :=
  ⟨[⟨⟨0, 0, 0⟩⟩], [0, 0, 0, 0]⟩

/-- Spec §8 scenario C: an index equal to `positions.length`. -/
def objC : Obj ℤ :=
  ⟨[⟨⟨0, 0, 0⟩⟩], [0, 1, 0]⟩

/-- Fewer than three indices: no window. -/
def objShort : Obj ℤ :=
  ⟨[⟨⟨0, 0, 0⟩⟩, ⟨⟨1, 0, 0⟩⟩], [0]⟩

/-- The normal buffer computed for `objA`. -/
def nsA : List (Vec3 ℤ) := [⟨0, 0, -1⟩, ⟨0, 0, 0⟩, ⟨0, 0, 0⟩]

/-- The mesh produced for `objA`. -/
def meshA : Mesh ℤ :=
  { topology := PrimitiveTopology.triangleList
    position := [⟨0, 0, 0⟩, ⟨1, 0, 0⟩, ⟨0, 1, 0⟩]
    normal := [⟨0, 0, -1⟩, ⟨0, 0, 0⟩, ⟨0, 0, 0⟩]
    uv0 := [⟨0, 0, 0⟩, ⟨0, 0, 0⟩, ⟨0, 0, 0⟩]
    indices := [0, 1, 2] }

/-- The mesh produced for `objB`. -/
def meshB : Mesh ℤ :=
  { topology := PrimitiveTopology.triangleList
    position := [⟨0, 0, 0⟩]
    normal := [⟨0, 0, 0⟩]
    uv0 := [⟨0, 0, 0⟩]
    indices := [0, 0, 0, 0] }

/-! The claims. -/

/-- C1: for every input whose index values are all in range, the
normal-synthesis step of `normals_for_positions` computes exactly the
algorithm the spec describes: it starts from an accumulator of N zero
vectors, iterates over every window of three consecutive index values
advancing one element at a time (`windowsSpec`), computes
`normalize(cross(positions[i0] - positions[i1], positions[i2] -
positions[i1]))` for each window, and adds that vector into the
accumulator at slot `i0` only (`normalsSpec`). -/
theorem C1_windows_accumulation [Ring α] (normalize : Vec3 α → Vec3 α)
    (obj : Obj α) (h : ∀ i ∈ obj.indices, i < obj.vertices.length) :
    normals_for_positions normalize obj =
      some (normalsSpec normalize (obj.vertices.map (fun v => v.position))
        obj.indices) :=
  normals_eq_spec normalize obj h

theorem C1_windows_accumulation_witness :
    (∀ i ∈ objA.indices, i < objA.vertices.length) ∧
    normals_for_positions (fun v => v) objA =
      some (normalsSpec (fun v => v)
        (objA.vertices.map (fun v => v.position)) objA.indices) :=
  ⟨by decide, C1_windows_accumulation (fun v => v) objA (by decide)⟩

/-- C2, counterexample: on `objC` (one position, index value 1 equal to
`positions.length` inside a window) the load does fail and no mesh is
produced, but the failure is the unrecovered panic of
`Vec::get(..).unwrap()`, not a typed failure value returned to the
caller — so the claim as stated is false at this input. -/
theorem C2_counterexample :
    load_obj (ε := Unit) (fun v => v) (Except.ok objC) =
      Except.error LoadFailure.panicked ∧
    ¬ ∃ e : Unit, load_obj (ε := Unit) (fun v => v) (Except.ok objC) =
      Except.error (LoadFailure.typed e) := by
  refine ⟨rfl, ?_⟩
  intro hex
  obtain ⟨e, he⟩ := hex
  rw [show load_obj (ε := Unit) (fun v => v) (Except.ok objC) =
    Except.error LoadFailure.panicked from rfl] at he
  simp at he

/-- C2, amended: if some window of three consecutive index values contains
an index `≥ positions.length`, the whole load fails with no mesh produced
(no partial result), but the failure is an unrecovered panic of the
`unwrap` in `normals_for_positions`, not a typed failure value: the typed
`ObjError` path covers only parse errors. -/
theorem C2_amended_panic [Ring α] (ε : Type) (normalize : Vec3 α → Vec3 α)
    (obj : Obj α)
    (h : ∃ w ∈ windows3 obj.indices, obj.vertices.length ≤ w.1 ∨
      obj.vertices.length ≤ w.2.1 ∨ obj.vertices.length ≤ w.2.2) :
    load_obj (ε := ε) normalize (Except.ok obj) =
      Except.error LoadFailure.panicked := by
  have hn : normals_for_positions normalize obj = none :=
    normals_eq_none_of_oob normalize obj h
  have hp : load_obj_pnt normalize obj = none := by
    simp [load_obj_pnt, hn]
  simp [load_obj, hp]

theorem C2_amended_panic_witness :
    (∃ w ∈ windows3 objC.indices, objC.vertices.length ≤ w.1 ∨
      objC.vertices.length ≤ w.2.1 ∨ objC.vertices.length ≤ w.2.2) ∧
    load_obj (ε := Unit) (fun v => v) (Except.ok objC) =
      Except.error LoadFailure.panicked :=
  ⟨by decide, C2_amended_panic Unit (fun v => v) objC (by decide)⟩

/-- C3: when all indices are in range, every entry of the NORMAL buffer is
the plain component-wise sum of the unit normals of the windows whose
first component is that vertex, with no renormalization after summation;
in particular a vertex that is the first component of no window gets the
zero vector. -/
theorem C3_entry_is_sum [Ring α] (normalize : Vec3 α → Vec3 α) (obj : Obj α)
    (h : ∀ i ∈ obj.indices, i < obj.vertices.length)
    (ns : List (Vec3 α)) (hns : normals_for_positions normalize obj = some ns)
    (j : Nat) (hj : j < obj.vertices.length) :
    ns.getD j 0 =
      (((windows3 obj.indices).filter (fun w => w.1 = j)).map
        (windowNormal normalize (obj.vertices.map (fun v => v.position)))).sum ∧
    ((∀ w ∈ windows3 obj.indices, w.1 ≠ j) → ns.getD j 0 = 0) := by
  have hspec := normals_eq_spec normalize obj h
  rw [hns, Option.some_inj] at hspec
  subst hspec
  have hmain : (normalsSpec normalize
        (obj.vertices.map (fun v => v.position)) obj.indices).getD j 0 =
      (((windows3 obj.indices).filter (fun w => w.1 = j)).map
        (windowNormal normalize (obj.vertices.map (fun v => v.position)))).sum := by
    rw [normalsSpec_eq_foldl, ← windows3_eq_windowsSpec,
      specFold_getD normalize _ _ _ j
        (by rw [List.length_replicate, List.length_map]; exact hj)
        (fun w hw => by
          rw [List.length_replicate, List.length_map]
          exact h _ (windows3_mem hw).1),
      List.getD_eq_getElem _ _
        (by rw [List.length_replicate, List.length_map]; exact hj),
      List.getElem_replicate, zero_add]
  refine ⟨hmain, fun hnone => ?_⟩
  rw [hmain, List.filter_eq_nil_iff.mpr (fun w hw => by simp [hnone w hw]),
    List.map_nil, List.sum_nil]

theorem C3_entry_is_sum_witness :
    (∀ i ∈ objA.indices, i < objA.vertices.length) ∧
    normals_for_positions (fun v => v) objA = some nsA ∧
    (0 : Nat) < objA.vertices.length ∧
    (nsA.getD 0 0 =
      (((windows3 objA.indices).filter (fun w => w.1 = 0)).map
        (windowNormal (fun v => v)
          (objA.vertices.map (fun v => v.position)))).sum ∧
     ((∀ w ∈ windows3 objA.indices, w.1 ≠ 0) → nsA.getD 0 0 = 0)) :=
  ⟨by decide, by decide, by decide,
    C3_entry_is_sum (fun v => v) objA (by decide) nsA (by decide) 0 (by decide)⟩

/-- C4: for any parsed input with N positions and in-range indices, the
produced mesh has POSITION, NORMAL and UV0 buffers of length N and an
index buffer of length M. -/
theorem C4_lengths [Ring α] (normalize : Vec3 α → Vec3 α) (obj : Obj α)
    (h : ∀ i ∈ obj.indices, i < obj.vertices.length)
    (m : Mesh α) (hm : load_obj_pnt normalize obj = some m) :
    m.position.length = obj.vertices.length ∧
    m.normal.length = obj.vertices.length ∧
    m.uv0.length = obj.vertices.length ∧
    m.indices.length = obj.indices.length := by
  simp only [load_obj_pnt, Option.bind_eq_bind, Option.bind_eq_some,
    Option.pure_def, Option.some_inj] at hm
  obtain ⟨ns, hns, hm⟩ := hm
  have hspec := normals_eq_spec normalize obj h
  rw [hns, Option.some_inj] at hspec
  subst hspec
  rw [← hm]
  refine ⟨List.length_map .., ?_, ?_, ?_⟩
  · show (normalsSpec normalize _ _).length = _
    rw [normalsSpec_length, List.length_map]
  · exact List.length_map ..
  · exact List.length_map ..

theorem C4_lengths_witness :
    (∀ i ∈ objA.indices, i < objA.vertices.length) ∧
    load_obj_pnt (fun v => v) objA = some meshA ∧
    (meshA.position.length = objA.vertices.length ∧
     meshA.normal.length = objA.vertices.length ∧
     meshA.uv0.length = objA.vertices.length ∧
     meshA.indices.length = objA.indices.length) :=
  ⟨by decide, by decide,
    C4_lengths (fun v => v) objA (by decide) meshA (by decide)⟩

/-- C5: whenever a mesh is produced, its POSITION buffer is exactly the
input position sequence, element for element, in order, untransformed. -/
theorem C5_position_identity [Ring α] (normalize : Vec3 α → Vec3 α)
    (obj : Obj α) (m : Mesh α)
    (hm : load_obj_pnt normalize obj = some m) :
    m.position = obj.vertices.map (fun v => v.position) := by
  simp only [load_obj_pnt, Option.bind_eq_bind, Option.bind_eq_some,
    Option.pure_def, Option.some_inj] at hm
  obtain ⟨ns, hns, hm⟩ := hm
  rw [← hm]

theorem C5_position_identity_witness :
    load_obj_pnt (fun v => v) objB = some meshB ∧
    meshB.position = objB.vertices.map (fun v => v.position) :=
  ⟨by decide, C5_position_identity (fun v => v) objB meshB (by decide)⟩

/-- C6: for every input the UV0 buffer has one entry per vertex and every
entry is the fixed value `(0, 0, 0)`, regardless of the input's contents;
`uvs_for_positions` is a total function (no failure path). -/
theorem C6_uv_constant [Ring α] (positions : Obj α) :
    (uvs_for_positions positions).length = positions.vertices.length ∧
    uvs_for_positions positions =
      List.replicate positions.vertices.length (Vec3.mk 0 0 0) := by
  refine ⟨List.length_map .., ?_⟩
  rw [List.eq_replicate_iff]
  refine ⟨List.length_map .., fun u hu => ?_⟩
  obtain ⟨v, _, hv⟩ := List.mem_map.mp hu
  exact hv.symm

/-- C7: with fewer than three indices there is no window at all, and the
NORMAL buffer is the zero vector at every one of the N vertices. -/
theorem C7_short_indices [Ring α] (normalize : Vec3 α → Vec3 α)
    (obj : Obj α) (h : obj.indices.length < 3) :
    windows3 obj.indices = [] ∧
    normals_for_positions normalize obj =
      some (List.replicate obj.vertices.length (Vec3.mk 0 0 0)) := by
  have hw := windows3_eq_nil_of_short h
  refine ⟨hw, ?_⟩
  rw [normals_for_positions, hw]
  rfl

theorem C7_short_indices_witness :
    objShort.indices.length < 3 ∧
    (windows3 objShort.indices = [] ∧
     normals_for_positions (fun v => v) objShort =
       some (List.replicate objShort.vertices.length (Vec3.mk 0 0 0))) :=
  ⟨by decide, C7_short_indices (fun v => v) objShort (by decide)⟩

/-- C8: whenever a mesh is produced, its index buffer holds exactly the
input index values in the same order, and its topology is the fixed
`TriangleList`; no multiple-of-three constraint on the index count is
required or enforced. -/
theorem C8_indices_preserved [Ring α] (normalize : Vec3 α → Vec3 α)
    (obj : Obj α) (m : Mesh α)
    (hm : load_obj_pnt normalize obj = some m) :
    m.indices = obj.indices ∧ m.topology = PrimitiveTopology.triangleList := by
  simp only [load_obj_pnt, Option.bind_eq_bind, Option.bind_eq_some,
    Option.pure_def, Option.some_inj] at hm
  obtain ⟨ns, hns, hm⟩ := hm
  rw [← hm]
  refine ⟨?_, rfl⟩
  show set_mesh_indices obj = obj.indices
  rw [set_mesh_indices]
  exact List.map_id' obj.indices

theorem C8_indices_preserved_witness :
    load_obj_pnt (fun v => v) objB = some meshB ∧
    (meshB.indices = objB.indices ∧
     meshB.topology = PrimitiveTopology.triangleList) :=
  ⟨by decide, C8_indices_preserved (fun v => v) objB meshB (by decide)⟩

/-- C9: the normal-synthesis engine is a pure function of its input: two
runs on equal inputs (same positions, same indices, same normalization
routine) produce equal NORMAL output. -/
theorem C9_deterministic [Ring α] (normalize : Vec3 α → Vec3 α)
    (o1 o2 : Obj α) (h : o1 = o2) :
    normals_for_positions normalize o1 = normals_for_positions normalize o2 := by
  rw [h]

theorem C9_deterministic_witness :
    objA = objA ∧
    normals_for_positions (fun v => v) objA =
      normals_for_positions (fun v => v) objA :=
  ⟨rfl, C9_deterministic (fun v => v) objA objA rfl⟩

end BevyObj
